import Mathlib

/-!
# Ceph version identification (`pkg/operator/ceph/version/version.go`)

A shallow embedding of the `version` package: the `CephVersion` value type, the
static release catalog, the classification and ordering queries, and the parser
`ExtractCephVersion` for the output of `ceph --version`.

Modelling conventions.

* Go `int` fields are modelled as `Int`.  The package only compares and copies
  them; the one place where the machine width matters is `strconv.Atoi`, whose
  range check is modelled explicitly (`intSize = 64`).
* Go strings are modelled as `String`, and the scanning code works on the list of
  characters.  The version pattern is pure ASCII, so scanning characters and
  scanning bytes find the same matches.
* `(*CephVersion, error)` is modelled as `Except String CephVersion`, the error
  being represented by its message.
-/

namespace Version

/-! ## Data model -/

/-- The Go struct `CephVersion`, three `int` fields. -/
structure CephVersion where
  Major : Int
  Minor : Int
  Extra : Int
  deriving DecidableEq, Repr

/-- The constant `unknownVersionString`. -/
def unknownVersionString : String := "<unknown version>"

/-- Luminous Ceph version. -/
def Luminous : CephVersion := ⟨12, 0, 0⟩

/-- Mimic Ceph version. -/
def Mimic : CephVersion := ⟨13, 0, 0⟩

/-- Nautilus Ceph version. -/
def Nautilus : CephVersion := ⟨14, 0, 0⟩

/-- Octopus Ceph version. -/
def Octopus : CephVersion := ⟨15, 0, 0⟩

/-- The production-ready versions that rook supports. -/
def supportedVersions : List CephVersion := [Luminous, Mimic]

/-- The versions that are known but not production-ready. -/
def unsupportedVersions : List CephVersion := [Nautilus]

/-- The catalog `append(supportedVersions, unsupportedVersions...)`. -/
def allVersions : List CephVersion := supportedVersions ++ unsupportedVersions

/-! ## Classification and ordering -/

/-- The method `ReleaseName`: a `switch` on `v.Major` whose cases are tried in the
order Octopus, Nautilus, Mimic, Luminous. -/
def ReleaseName (v : CephVersion) : String :=
  if v.Major = Octopus.Major then "octopus"
  else if v.Major = Nautilus.Major then "nautilus"
  else if v.Major = Mimic.Major then "mimic"
  else if v.Major = Luminous.Major then "luminous"
  else unknownVersionString

/-- The method `isRelease`: equality of the major numbers. -/
def isRelease (v other : CephVersion) : Bool :=
  decide (v.Major = other.Major)

/-- The loop of `Supported` over a slice of versions: the first entry that is the
same release as `v` makes the result `true`, an exhausted slice makes it `false`. -/
def supportedLoop (v : CephVersion) : List CephVersion → Bool
  | [] => false
  | sv :: rest => if isRelease v sv then true else supportedLoop v rest

/-- The method `Supported`. -/
def Supported (v : CephVersion) : Bool :=
  supportedLoop v supportedVersions

/-- The method `IsLuminous`. -/
def IsLuminous (v : CephVersion) : Bool :=
  isRelease v Luminous

/-- The method `IsAtLeast`, branch for branch. -/
def IsAtLeast (v other : CephVersion) : Bool :=
  if v.Major > other.Major then true
  else if v.Major < other.Major then false
  else if v.Minor > other.Minor then true
  else if v.Minor < other.Minor then false
  else if v.Extra > other.Extra then true
  else if v.Extra < other.Extra then false
  else true

/-- The method `IsAtLeastOctopus`. -/
def IsAtLeastOctopus (v : CephVersion) : Bool :=
  IsAtLeast v Octopus

/-- The method `IsAtLeastNautilus`. -/
def IsAtLeastNautilus (v : CephVersion) : Bool :=
  IsAtLeast v Nautilus

/-- The method `IsAtLeastMimic`. -/
def IsAtLeastMimic (v : CephVersion) : Bool :=
  IsAtLeast v Mimic

/-! ## Parsing -/

/-- The width of a Go `int` on the 64-bit platforms the operator is built for
(`strconv.IntSize`). -/
def intSize : Nat := 64

/-- The largest Go `int`. -/
def maxInt : Nat := 2 ^ (intSize - 1) - 1

/-- The value of a string of ASCII decimal digits, most significant digit first, as
the digit loop of `strconv` accumulates it; `none` when the string is empty or has a
character outside `0`..`9`. -/
def parseDigits : List Char → Option Nat
  | [] => none
  | c :: cs =>
    if (c :: cs).all Char.isDigit then
      some ((c :: cs).foldl (fun n ch => n * 10 + (ch.toNat - 48)) 0)
    else none

/-- Go's `strconv.Atoi` (base 10, result of type `int`): an optional sign, then one
or more decimal digits; a value outside the range of `int` is a range error.  The
error value itself is not used by the caller, so failure is `none`. -/
def Atoi (s : List Char) : Option Int :=
  match s with
  | [] => none
  | c :: r =>
    if c = '-' then
      match parseDigits r with
      | some n => if n ≤ maxInt + 1 then some (-(n : Int)) else none
      | none => none
    else if c = '+' then
      match parseDigits r with
      | some n => if n ≤ maxInt then some (n : Int) else none
      | none => none
    else
      match parseDigits (c :: r) with
      | some n => if n ≤ maxInt then some (n : Int) else none
      | none => none

/-- The result slice of `FindStringSubmatch` for a pattern with three capture
groups: `m0` is the text of the whole match, `m1`, `m2`, `m3` are the groups. -/
structure Submatch where
  m0 : List Char
  m1 : List Char
  m2 : List Char
  m3 : List Char
  deriving DecidableEq, Repr

/-- The literal head of `versionPattern`. -/
def versionLiteral : List Char := "ceph version ".toList

/-- A run of literal characters of a pattern: the text has to begin with exactly
these characters, and what follows them is returned. -/
def literal : List Char → List Char → Option (List Char)
  | [], s => some s
  | _ :: _, [] => none
  | c :: cs, x :: s => if x = c then literal cs s else none

/-- A capture group `(\d+)`: the longest run of ASCII digits at the head of the
text, which has to be non-empty, and the text after it.  In `versionPattern` every
group is followed by `\.` or by the end of the pattern, so a shorter run can never
be part of a match and the greedy choice is the only one to try. -/
def digitGroup (s : List Char) : Option (List Char × List Char) :=
  match s.takeWhile Char.isDigit with
  | [] => none
  | d :: ds => some (d :: ds, s.dropWhile Char.isDigit)

/-- The pattern element `\.`: a literal full stop. -/
def dot : List Char → Option (List Char)
  | c :: r => if c = '.' then some r else none
  | [] => none

/-- A match of `versionPattern`, the regular expression
`ceph version (\d+)\.(\d+)\.(\d+)`, anchored at the head of the text. -/
def matchAt (s : List Char) : Option Submatch :=
  match literal versionLiteral s with
  | none => none
  | some r0 =>
    match digitGroup r0 with
    | none => none
    | some (g1, r1) =>
      match dot r1 with
      | none => none
      | some r2 =>
        match digitGroup r2 with
        | none => none
        | some (g2, r3) =>
          match dot r3 with
          | none => none
          | some r4 =>
            match digitGroup r4 with
            | none => none
            | some (g3, _) =>
              some ⟨versionLiteral ++ g1 ++ '.' :: g2 ++ '.' :: g3, g1, g2, g3⟩

/-- The call `versionPattern.FindStringSubmatch`: the leftmost match in the text, or
`none` (Go's `nil`) when no position starts a match. -/
def FindStringSubmatch : List Char → Option Submatch
  | [] => matchAt []
  | c :: cs =>
    match matchAt (c :: cs) with
    | some m => some m
    | none => FindStringSubmatch cs

/-- The function `ExtractCephVersion`. -/
def ExtractCephVersion (src : String) : Except String CephVersion :=
  match FindStringSubmatch src.toList with
  | none => .error ("failed to parse version from: " ++ src)
  | some m =>
    match Atoi m.m1 with
    | none => .error ("failed to parse version major part: " ++ String.mk m.m0)
    | some major =>
      match Atoi m.m2 with
      | none => .error ("failed to parse version minor part: " ++ String.mk m.m1)
      | some minor =>
        match Atoi m.m3 with
        | none => .error ("failed to parse version extra part: " ++ String.mk m.m2)
        | some extra => .ok ⟨major, minor, extra⟩

/-! ## Formatting -/

/-- An operand of `fmt.Sprintf`: the package passes `int` and `string` values. -/
inductive FmtArg where
  | int (i : Int)
  | str (s : String)

/-- The verb `%d` of `fmt` on an `int`: a minus sign for a negative number, then the
decimal digits of the magnitude without leading zeros. -/
def formatInt (i : Int) : List Char :=
  if i < 0 then '-' :: Nat.toDigits 10 i.natAbs else Nat.toDigits 10 i.toNat

/-- Go's `fmt.Sprintf` for the verbs the package uses: `%d` consumes an `int`
operand, `%s` consumes a `string` operand, and every other character of the format
is copied.  The package always passes the operand a verb asks for; a verb without
its operand, for which Go prints an error marker, is copied here and never arises. -/
def Sprintf : List Char → List FmtArg → List Char
  | [], _ => []
  | [c], _ => [c]
  | c :: v :: rest, args =>
    if c = '%' then
      match v, args with
      | 'd', FmtArg.int i :: args1 => formatInt i ++ Sprintf rest args1
      | 's', FmtArg.str t :: args1 => t.toList ++ Sprintf rest args1
      | _, _ => c :: Sprintf (v :: rest) args
    else c :: Sprintf (v :: rest) args

/-- The method `String`. -/
def CephVersion.String (v : CephVersion) : String :=
  String.mk (Sprintf "%d.%d.%d %s".toList
    [FmtArg.int v.Major, FmtArg.int v.Minor, FmtArg.int v.Extra, FmtArg.str (ReleaseName v)])

/-! ## Vocabulary of the specification -/

/-- One or more ASCII decimal digits. -/
def IsDigits (d : String) : Prop :=
  d ≠ "" ∧ ∀ c ∈ d.toList, c.isDigit = true

/-- The text contains a substring of the form
`ceph version <digits>.<digits>.<digits>`, that is, `versionPattern` has a match
somewhere in the text. -/
def ContainsVersion (text : String) : Prop :=
  ∃ pre d1 d2 d3 post : String,
    IsDigits d1 ∧ IsDigits d2 ∧ IsDigits d3 ∧
      text = pre ++ "ceph version " ++ d1 ++ "." ++ d2 ++ "." ++ d3 ++ post

/-- One or more ASCII decimal digits, as a list of characters. -/
def DigitRun (d : List Char) : Prop :=
  d ≠ [] ∧ ∀ c ∈ d, c.isDigit = true

/-- The text begins with an ASCII decimal digit. -/
def BeginsWithDigit (text : String) : Prop :=
  ∃ c ∈ text.toList.head?, c.isDigit = true

/-- The message contains the text as a contiguous substring. -/
def Mentions (msg text : String) : Prop :=
  text.toList <:+: msg.toList

/-- The number a non-empty string of decimal digits denotes. -/
def digitsValue (d : List Char) : Nat :=
  d.foldl (fun n ch => n * 10 + (ch.toNat - 48)) 0

/-! ## The ordering `IsAtLeast` -/

/-- The comparison chain of `IsAtLeast`, as a proposition. -/
theorem isAtLeast_iff (v other : CephVersion) :
    IsAtLeast v other = true ↔
      other.Major < v.Major ∨ (other.Major = v.Major ∧
        (other.Minor < v.Minor ∨ (other.Minor = v.Minor ∧ other.Extra ≤ v.Extra))) := by
  unfold IsAtLeast
  split_ifs <;> simp <;> omega

/-- C1: `v.IsAtLeast(other)` is true exactly when the triple
`(v.Major, v.Minor, v.Extra)` is greater than or equal to the triple of `other` in
the lexicographic order: Major is compared first, then Minor, then Extra, and equal
triples give true. -/
theorem isAtLeast_iff_lex (v other : CephVersion) :
    (IsAtLeast v other = true ↔
      toLex (other.Major, toLex (other.Minor, other.Extra))
        ≤ toLex (v.Major, toLex (v.Minor, v.Extra))) ∧
    (IsAtLeast v other = true ↔
      other.Major < v.Major ∨ (other.Major = v.Major ∧
        (other.Minor < v.Minor ∨ (other.Minor = v.Minor ∧ other.Extra ≤ v.Extra)))) ∧
    IsAtLeast v v = true := by
  refine ⟨?_, isAtLeast_iff v other, (isAtLeast_iff v v).mpr (by omega)⟩
  rw [isAtLeast_iff, Prod.Lex.le_iff]
  simp only [Prod.Lex.le_iff]

/-- C6: two versions that differ in some component are ordered one way only, and
`IsAtLeast` holds both ways between versions with equal components. -/
theorem isAtLeast_total_antisymm (a b : CephVersion) :
    (a ≠ b → ((IsAtLeast a b = true ∧ IsAtLeast b a = false) ∨
              (IsAtLeast a b = false ∧ IsAtLeast b a = true))) ∧
    (a = b → (IsAtLeast a b = true ∧ IsAtLeast b a = true)) := by
  obtain ⟨a1, a2, a3⟩ := a
  obtain ⟨b1, b2, b3⟩ := b
  have hab := isAtLeast_iff ⟨a1, a2, a3⟩ ⟨b1, b2, b3⟩
  have hba := isAtLeast_iff ⟨b1, b2, b3⟩ ⟨a1, a2, a3⟩
  simp only [ne_eq, CephVersion.mk.injEq] at *
  constructor
  · intro hne
    cases h1 : IsAtLeast ⟨a1, a2, a3⟩ ⟨b1, b2, b3⟩ <;>
      cases h2 : IsAtLeast ⟨b1, b2, b3⟩ ⟨a1, a2, a3⟩ <;>
      simp only [h1, h2, Bool.false_eq_true, false_iff, true_iff] at hab hba <;>
      simp <;> omega
  · rintro ⟨rfl, rfl, rfl⟩
    exact ⟨hab.mpr (by omega), hba.mpr (by omega)⟩

/-- Instance of C6 at a pair of distinct versions and at a pair of equal ones. -/
theorem isAtLeast_total_antisymm_witness :
    ((⟨14, 2, 1⟩ : CephVersion) ≠ ⟨13, 9, 9⟩ ∧
      ((IsAtLeast ⟨14, 2, 1⟩ ⟨13, 9, 9⟩ = true ∧ IsAtLeast ⟨13, 9, 9⟩ ⟨14, 2, 1⟩ = false) ∨
       (IsAtLeast ⟨14, 2, 1⟩ ⟨13, 9, 9⟩ = false ∧ IsAtLeast ⟨13, 9, 9⟩ ⟨14, 2, 1⟩ = true))) ∧
    (IsAtLeast ⟨14, 2, 1⟩ ⟨14, 2, 1⟩ = true ∧ IsAtLeast ⟨14, 2, 1⟩ ⟨14, 2, 1⟩ = true) :=
  ⟨⟨by decide, (isAtLeast_total_antisymm ⟨14, 2, 1⟩ ⟨13, 9, 9⟩).1 (by decide)⟩,
    (isAtLeast_total_antisymm ⟨14, 2, 1⟩ ⟨14, 2, 1⟩).2 rfl⟩

/-- C7: `IsAtLeast` is transitive. -/
theorem isAtLeast_trans (a b c : CephVersion)
    (hab : IsAtLeast a b = true) (hbc : IsAtLeast b c = true) :
    IsAtLeast a c = true := by
  rw [isAtLeast_iff] at *
  omega

/-- Instance of C7 along `15.0.0 ≥ 14.2.1 ≥ 14.2.0`. -/
theorem isAtLeast_trans_witness :
    IsAtLeast ⟨15, 0, 0⟩ ⟨14, 2, 1⟩ = true ∧ IsAtLeast ⟨14, 2, 1⟩ ⟨14, 2, 0⟩ = true ∧
      IsAtLeast ⟨15, 0, 0⟩ ⟨14, 2, 0⟩ = true :=
  ⟨by decide, by decide, isAtLeast_trans ⟨15, 0, 0⟩ ⟨14, 2, 1⟩ ⟨14, 2, 0⟩ (by decide) (by decide)⟩

/-! ## Classification against the catalog -/

/-- The loop of `Supported` finds an entry exactly when one exists. -/
theorem supportedLoop_iff (v : CephVersion) (l : List CephVersion) :
    supportedLoop v l = true ↔ ∃ e ∈ l, isRelease v e = true := by
  induction l with
  | nil => simp [supportedLoop]
  | cons sv rest ih =>
    unfold supportedLoop
    by_cases h : isRelease v sv = true
    · simp [h]
    · simp [h, ih]

/-- C8: `v.Supported()` is true exactly when some entry of `supportedVersions` is
the same release as `v`, that is when `v.Major` is 12 or 13; it is false for major
14 and for every major that is in no catalog. -/
theorem supported_iff (v : CephVersion) :
    (Supported v = true ↔ ∃ e ∈ supportedVersions, isRelease v e = true) ∧
    (Supported v = true ↔ v.Major = 12 ∨ v.Major = 13) ∧
    (v.Major = 14 → Supported v = false) ∧
    ((∀ e ∈ allVersions, v.Major ≠ e.Major) → Supported v = false) ∧
    Supported ⟨12, 2, 0⟩ = true ∧ Supported ⟨14, 0, 0⟩ = false ∧
    Supported ⟨99, 0, 0⟩ = false := by
  have h1 : Supported v = true ↔ ∃ e ∈ supportedVersions, isRelease v e = true :=
    supportedLoop_iff v supportedVersions
  have h2 : Supported v = true ↔ v.Major = 12 ∨ v.Major = 13 := by
    rw [h1]
    simp [supportedVersions, isRelease, Luminous, Mimic]
  refine ⟨h1, h2, ?_, ?_, by decide, by decide, by decide⟩
  · intro h14
    rw [← Bool.not_eq_true, h2]
    omega
  · intro hno
    rw [← Bool.not_eq_true, h2]
    have h12 := hno Luminous (by simp [allVersions, supportedVersions])
    have h13 := hno Mimic (by simp [allVersions, supportedVersions])
    simp only [Luminous, Mimic] at h12 h13
    omega

/-- Instance of C8 at Nautilus and at the uncatalogued major 99. -/
theorem supported_iff_witness :
    ((⟨14, 0, 0⟩ : CephVersion).Major = 14 ∧ Supported ⟨14, 0, 0⟩ = false) ∧
    ((∀ e ∈ allVersions, (⟨99, 0, 0⟩ : CephVersion).Major ≠ e.Major) ∧
      Supported ⟨99, 0, 0⟩ = false) :=
  ⟨⟨rfl, (supported_iff ⟨14, 0, 0⟩).2.2.1 rfl⟩,
    ⟨by decide, (supported_iff ⟨99, 0, 0⟩).2.2.2.1 (by decide)⟩⟩

/-- C9, as stated, fails: major 15 is the major of no entry of `allVersions`, yet
`ReleaseName` answers `"octopus"` and not the sentinel. -/
theorem releaseName_octopus_not_in_catalog :
    (∀ e ∈ allVersions, (⟨15, 0, 0⟩ : CephVersion).Major ≠ e.Major) ∧
    ReleaseName ⟨15, 0, 0⟩ = "octopus" ∧
    ReleaseName ⟨15, 0, 0⟩ ≠ "<unknown version>" := by
  decide

/-- C9, amended: a version whose major is the major of no entry of `allVersions`
and is not the major of `Octopus` has the sentinel `"<unknown version>"` as its
release name. -/
theorem releaseName_unknown (v : CephVersion)
    (hcat : ∀ e ∈ allVersions, v.Major ≠ e.Major) (hoct : v.Major ≠ Octopus.Major) :
    ReleaseName v = "<unknown version>" := by
  have h12 := hcat Luminous (by simp [allVersions, supportedVersions])
  have h13 := hcat Mimic (by simp [allVersions, supportedVersions])
  have h14 := hcat Nautilus (by simp [allVersions, unsupportedVersions])
  simp [ReleaseName, h12, h13, h14, hoct, unknownVersionString]

/-- Instance of the amended C9 at major 99. -/
theorem releaseName_unknown_witness :
    (∀ e ∈ allVersions, (⟨99, 0, 0⟩ : CephVersion).Major ≠ e.Major) ∧
    (⟨99, 0, 0⟩ : CephVersion).Major ≠ Octopus.Major ∧
    ReleaseName ⟨99, 0, 0⟩ = "<unknown version>" :=
  ⟨by decide, by decide, releaseName_unknown ⟨99, 0, 0⟩ (by decide) (by decide)⟩

/-- C10: `ReleaseName` is "luminous", "mimic", "nautilus", "octopus" for majors 12,
13, 14, 15 and the sentinel for every other major, negative ones included; it does
not depend on Minor or Extra. -/
theorem releaseName_table (v : CephVersion) :
    ReleaseName v =
      (if v.Major = 12 then "luminous"
       else if v.Major = 13 then "mimic"
       else if v.Major = 14 then "nautilus"
       else if v.Major = 15 then "octopus"
       else "<unknown version>") ∧
    (∀ minor extra, ReleaseName ⟨v.Major, minor, extra⟩ = ReleaseName v) ∧
    ReleaseName ⟨99, 0, 0⟩ = "<unknown version>" ∧
    ReleaseName ⟨-12, 0, 0⟩ = "<unknown version>" := by
  refine ⟨?_, fun _ _ => rfl, by decide, by decide⟩
  simp only [ReleaseName, Octopus, Nautilus, Mimic, Luminous, unknownVersionString]
  split_ifs <;> first | rfl | omega

/-! ## The pattern matcher -/

theorem literal_eq_some_iff (l s r : List Char) :
    literal l s = some r ↔ s = l ++ r := by
  induction l generalizing s with
  | nil => simp [literal, eq_comm]
  | cons c cs ih =>
    cases s with
    | nil => simp [literal]
    | cons x s =>
      by_cases hx : x = c
      · simp [literal, hx, ih]
      · simp [literal, hx]

theorem digitGroup_eq_some_iff (s g r : List Char) :
    digitGroup s = some (g, r) ↔
      g ≠ [] ∧ g = s.takeWhile Char.isDigit ∧ r = s.dropWhile Char.isDigit := by
  unfold digitGroup
  split
  · next h => simp [h]; intro hg hg2; exact absurd hg2 hg
  · next d ds h =>
    simp only [Option.some.injEq, Prod.mk.injEq, h]
    constructor
    · rintro ⟨rfl, rfl⟩; simp
    · rintro ⟨_, rfl, rfl⟩; simp

theorem dot_eq_some_iff (s r : List Char) : dot s = some r ↔ s = '.' :: r := by
  cases s with
  | nil => simp [dot]
  | cons c s =>
    by_cases hc : c = '.'
    · simp [dot, hc]
    · simp [dot, hc]

theorem digitGroup_append (d q : List Char) (hd : DigitRun d) :
    digitGroup (d ++ q) =
      some (d ++ q.takeWhile Char.isDigit, q.dropWhile Char.isDigit) := by
  rw [digitGroup_eq_some_iff]
  refine ⟨?_, ?_, ?_⟩
  · simp [hd.1]
  · rw [List.takeWhile_append_of_pos hd.2]
  · rw [List.dropWhile_append_of_pos hd.2]

theorem digitGroup_append_dot (d q : List Char) (hd : DigitRun d) :
    digitGroup (d ++ '.' :: q) = some (d, '.' :: q) := by
  have h := digitGroup_append d ('.' :: q) hd
  have hdot : ¬ (Char.isDigit '.' = true) := by decide
  simpa [List.takeWhile_cons_of_neg hdot, List.dropWhile_cons_of_neg hdot] using h

theorem digitRun_of_digitGroup {s g r : List Char} (h : digitGroup s = some (g, r)) :
    DigitRun g ∧ s = g ++ r ∧ r.takeWhile Char.isDigit = [] := by
  rw [digitGroup_eq_some_iff] at h
  obtain ⟨hne, rfl, rfl⟩ := h
  refine ⟨⟨hne, fun c hc => List.mem_takeWhile_imp hc⟩, ?_, ?_⟩
  · simp
  · cases hdr : List.dropWhile Char.isDigit s with
    | nil => rfl
    | cons x xs =>
      have hx := List.head?_dropWhile_not Char.isDigit s
      rw [hdr] at hx
      simp only [List.head?_cons, Option.all_some, Bool.not_eq_eq_eq_not, Bool.not_true] at hx
      simp [hx]

/-- What a match anchored at the head of the text looks like: the literal, three
non-empty digit runs separated by full stops, and the last run is not followed by
another digit. -/
theorem matchAt_sound {s : List Char} {m : Submatch} (h : matchAt s = some m) :
    ∃ q, s = m.m0 ++ q ∧ m.m0 = versionLiteral ++ m.m1 ++ '.' :: m.m2 ++ '.' :: m.m3 ∧
      DigitRun m.m1 ∧ DigitRun m.m2 ∧ DigitRun m.m3 ∧
      q.takeWhile Char.isDigit = [] := by
  unfold matchAt at h
  split at h
  · exact absurd h (by simp)
  · next r0 h0 =>
    split at h
    · exact absurd h (by simp)
    · next g1 r1 h1 =>
      split at h
      · exact absurd h (by simp)
      · next r2 h2 =>
        split at h
        · exact absurd h (by simp)
        · next g2 r3 h3 =>
          split at h
          · exact absurd h (by simp)
          · next r4 h4 =>
            split at h
            · exact absurd h (by simp)
            · next g3 r5 h5 =>
              simp only [Option.some.injEq] at h
              subst h
              rw [literal_eq_some_iff] at h0
              rw [dot_eq_some_iff] at h2 h4
              obtain ⟨hd1, e1, -⟩ := digitRun_of_digitGroup h1
              obtain ⟨hd2, e2, -⟩ := digitRun_of_digitGroup h3
              obtain ⟨hd3, e3, hq⟩ := digitRun_of_digitGroup h5
              refine ⟨r5, ?_, rfl, hd1, hd2, hd3, hq⟩
              simp only [h0, e1, h2, e2, h4, e3, List.append_assoc, List.cons_append]

/-- Every text of the shape of the pattern is matched at its head, with the digit
runs as the groups; the last group also takes the digits that follow it. -/
theorem matchAt_complete (d1 d2 d3 q : List Char)
    (h1 : DigitRun d1) (h2 : DigitRun d2) (h3 : DigitRun d3) :
    matchAt (versionLiteral ++ (d1 ++ '.' :: (d2 ++ '.' :: (d3 ++ q)))) =
      some ⟨versionLiteral ++ d1 ++ '.' :: d2 ++ '.' :: (d3 ++ q.takeWhile Char.isDigit),
        d1, d2, d3 ++ q.takeWhile Char.isDigit⟩ := by
  unfold matchAt
  have h0 : literal versionLiteral (versionLiteral ++ (d1 ++ '.' :: (d2 ++ '.' :: (d3 ++ q))))
      = some (d1 ++ '.' :: (d2 ++ '.' :: (d3 ++ q))) := by
    rw [literal_eq_some_iff]
  simp only [h0, digitGroup_append_dot _ _ h1, digitGroup_append_dot _ _ h2,
    digitGroup_append _ _ h3, dot, if_true]

/-! ## The leftmost search -/

theorem findStringSubmatch_eq_none_iff (s : List Char) :
    FindStringSubmatch s = none ↔ ∀ pre q, s = pre ++ q → matchAt q = none := by
  induction s with
  | nil =>
    simp only [FindStringSubmatch]
    constructor
    · intro h pre q hs
      obtain ⟨-, rfl⟩ := List.append_eq_nil.mp hs.symm
      exact h
    · intro h
      exact h [] [] rfl
  | cons c cs ih =>
    simp only [FindStringSubmatch]
    constructor
    · intro h pre q hs
      cases hm : matchAt (c :: cs) with
      | some m => rw [hm] at h; exact absurd h (by simp)
      | none =>
        rw [hm] at h
        cases pre with
        | nil => rw [List.nil_append] at hs; rw [← hs]; exact hm
        | cons x pre =>
          rw [List.cons_append, List.cons.injEq] at hs
          exact ih.mp h pre q hs.2
    · intro h
      rw [h [] (c :: cs) rfl]
      exact ih.mpr (fun pre q hs => h (c :: pre) q (by rw [hs, List.cons_append]))

/-- The match that `FindStringSubmatch` returns is anchored at some position of the
text, and no earlier position starts a match. -/
theorem findStringSubmatch_eq_some {s : List Char} {m : Submatch}
    (h : FindStringSubmatch s = some m) :
    ∃ pre q, s = pre ++ q ∧ matchAt q = some m ∧
      ∀ pre1 q1, s = pre1 ++ q1 → pre1.length < pre.length → matchAt q1 = none := by
  induction s with
  | nil =>
    simp only [FindStringSubmatch] at h
    exact ⟨[], [], rfl, h, fun _ _ _ hl => absurd hl (by simp)⟩
  | cons c cs ih =>
    simp only [FindStringSubmatch] at h
    cases hm : matchAt (c :: cs) with
    | some m1 =>
      rw [hm] at h
      simp only [Option.some.injEq] at h
      subst h
      exact ⟨[], c :: cs, rfl, hm, fun _ _ _ hl => absurd hl (by simp)⟩
    | none =>
      rw [hm] at h
      obtain ⟨pre, q, hs, hq, hleft⟩ := ih h
      refine ⟨c :: pre, q, by rw [hs, List.cons_append], hq, ?_⟩
      intro pre1 q1 hs1 hl
      cases pre1 with
      | nil => rw [List.nil_append] at hs1; rw [← hs1]; exact hm
      | cons x pre1 =>
        rw [List.cons_append, List.cons.injEq] at hs1
        exact hleft pre1 q1 hs1.2 (by simpa using hl)

/-- A stretch of text in front of which no match can start is skipped. -/
theorem findStringSubmatch_append_left (p t : List Char)
    (h : ∀ pre u, p = pre ++ u → u ≠ [] → matchAt (u ++ t) = none) :
    FindStringSubmatch (p ++ t) = FindStringSubmatch t := by
  induction p with
  | nil => rfl
  | cons c cs ih =>
    have h0 : matchAt (c :: cs ++ t) = none := h [] (c :: cs) rfl (by simp)
    rw [List.cons_append] at h0 ⊢
    simp only [FindStringSubmatch, h0]
    exact ih (fun pre u hp hu => h (c :: pre) u (by rw [hp, List.cons_append]) hu)

/-! ## The matcher and the vocabulary of the specification -/

theorem isDigits_iff (d : String) : IsDigits d ↔ DigitRun d.toList := by
  unfold IsDigits DigitRun
  have h : d ≠ "" ↔ d.toList ≠ [] := by
    rw [ne_eq, ne_eq, String.ext_iff]
    rfl
  rw [h]

theorem isDigits_mk {d : List Char} (h : DigitRun d) : IsDigits (String.mk d) :=
  (isDigits_iff _).mpr h

/-- The pattern has a match in the text exactly when some position of the text
starts a match of the anchored matcher. -/
theorem containsVersion_iff (text : String) :
    ContainsVersion text ↔ ∃ pre q m, text.toList = pre ++ q ∧ matchAt q = some m := by
  constructor
  · rintro ⟨pre, d1, d2, d3, post, h1, h2, h3, rfl⟩
    rw [isDigits_iff] at h1 h2 h3
    refine ⟨pre.toList,
      versionLiteral ++ (d1.toList ++ '.' :: (d2.toList ++ '.' :: (d3.toList ++ post.toList))),
      _, ?_, matchAt_complete _ _ _ _ h1 h2 h3⟩
    simp only [String.toList, String.data_append, List.append_assoc, versionLiteral]
    rfl
  · rintro ⟨pre, q, m, hs, hm⟩
    obtain ⟨post, hq, hm0, h1, h2, h3, -⟩ := matchAt_sound hm
    refine ⟨String.mk pre, String.mk m.m1, String.mk m.m2, String.mk m.m3, String.mk post,
      isDigits_mk h1, isDigits_mk h2, isDigits_mk h3, ?_⟩
    apply String.ext
    have hs1 : text.data = pre ++ q := hs
    simp only [String.data_append, hs1, hq, hm0, List.append_assoc, versionLiteral]
    rfl

theorem findStringSubmatch_eq_none_iff_not_contains (text : String) :
    FindStringSubmatch text.toList = none ↔ ¬ ContainsVersion text := by
  rw [findStringSubmatch_eq_none_iff, containsVersion_iff]
  constructor
  · rintro h ⟨pre, q, m, hs, hm⟩
    rw [h pre q hs] at hm
    exact absurd hm (by simp)
  · intro h pre q hs
    cases hm : matchAt q with
    | none => rfl
    | some m => exact absurd ⟨pre, q, m, hs, hm⟩ h

theorem findStringSubmatch_isSome_iff_contains (text : String) :
    (FindStringSubmatch text.toList).isSome = true ↔ ContainsVersion text := by
  rw [← not_iff_not, ← findStringSubmatch_eq_none_iff_not_contains]
  cases FindStringSubmatch text.toList <;> simp

/-- The letter `c` occurs in a match only as its first character. -/
theorem c_not_mem_tail_of_match {m : Submatch}
    (hm0 : m.m0 = versionLiteral ++ m.m1 ++ '.' :: m.m2 ++ '.' :: m.m3)
    (h1 : DigitRun m.m1) (h2 : DigitRun m.m2) (h3 : DigitRun m.m3) :
    'c' ∉ m.m0.tail := by
  have hc : ¬ (Char.isDigit 'c' = true) := by decide
  have k1 : 'c' ∉ m.m1 := fun h => hc (h1.2 _ h)
  have k2 : 'c' ∉ m.m2 := fun h => hc (h2.2 _ h)
  have k3 : 'c' ∉ m.m3 := fun h => hc (h3.2 _ h)
  rw [hm0]
  simp only [versionLiteral, String.toList, List.append_assoc, List.cons_append, List.tail_cons,
    List.mem_append, List.mem_cons, not_or, List.nil_append]
  refine ⟨by decide, by decide, by decide, by decide, by decide, by decide, by decide,
    by decide, by decide, by decide, by decide, by decide, k1, by decide, k2, by decide, k3⟩

/-- A non-empty stretch of text that starts no match does not start one either when
it is followed by text that begins with the letter `c`. -/
theorem matchAt_append_c (u t : List Char) (hu : u ≠ []) (hnone : matchAt u = none) :
    matchAt (u ++ 'c' :: t) = none := by
  cases hm : matchAt (u ++ 'c' :: t) with
  | none => rfl
  | some m =>
    exfalso
    obtain ⟨q, hs, hm0, h1, h2, h3, -⟩ := matchAt_sound hm
    have hnot := c_not_mem_tail_of_match hm0 h1 h2 h3
    have inside : ∀ r, u = m.m0 ++ r → False := by
      intro r hr
      have hc := matchAt_complete m.m1 m.m2 m.m3 r h1 h2 h3
      have hu2 : u = versionLiteral ++ (m.m1 ++ '.' :: (m.m2 ++ '.' :: (m.m3 ++ r))) := by
        rw [hr, hm0]
        simp only [List.append_assoc, List.cons_append]
      rw [← hu2, hnone] at hc
      exact absurd hc (by simp)
    rcases List.append_eq_append_iff.mp hs with ⟨a, ha, hb⟩ | ⟨r, hr, -⟩
    · cases a with
      | nil => exact inside [] (by simpa using ha.symm)
      | cons x a =>
        rw [List.cons_append, List.cons.injEq] at hb
        obtain ⟨rfl, -⟩ := hb
        cases u with
        | nil => exact hu rfl
        | cons y u =>
          rw [ha] at hnot
          simp at hnot
    · exact inside r hr

/-! ## Integer conversion -/

theorem digitChar_isDigit (k : Nat) (hk : k < 10) :
    (Nat.digitChar k).isDigit = true ∧ (Nat.digitChar k).toNat - 48 = k := by
  interval_cases k <;> exact ⟨by decide, by decide⟩

/-- The decimal rendering of a number is a digit run that denotes the number. -/
theorem toDigitsCore_spec (fuel n : Nat) (acc : List Char) (h : n < fuel) :
    ∃ ds, Nat.toDigitsCore 10 fuel n acc = ds ++ acc ∧ DigitRun ds ∧ digitsValue ds = n := by
  induction fuel generalizing n acc with
  | zero => omega
  | succ fuel ih =>
    have hd := digitChar_isDigit (n % 10) (Nat.mod_lt _ (by decide))
    simp only [Nat.toDigitsCore]
    by_cases h0 : n / 10 = 0
    · refine ⟨[Nat.digitChar (n % 10)], by simp [h0], ⟨by simp, by simpa using hd.1⟩, ?_⟩
      simp only [digitsValue, List.foldl_cons, List.foldl_nil, hd.2]
      omega
    · obtain ⟨ds, hds, hrun, hval⟩ := ih (n / 10) (Nat.digitChar (n % 10) :: acc) (by omega)
      refine ⟨ds ++ [Nat.digitChar (n % 10)], by simp [h0, hds], ⟨by simp, ?_⟩, ?_⟩
      · intro c hc
        rcases List.mem_append.mp hc with hc | hc
        · exact hrun.2 c hc
        · rw [List.mem_singleton.mp hc]; exact hd.1
      · unfold digitsValue at hval ⊢
        rw [List.foldl_append, hval]
        simp only [List.foldl_cons, List.foldl_nil, hd.2]
        omega

theorem toDigits_spec (n : Nat) :
    DigitRun (Nat.toDigits 10 n) ∧ digitsValue (Nat.toDigits 10 n) = n := by
  obtain ⟨ds, hds, hrun, hval⟩ := toDigitsCore_spec (n + 1) n [] (by omega)
  rw [List.append_nil] at hds
  unfold Nat.toDigits
  rw [hds]
  exact ⟨hrun, hval⟩

theorem parseDigits_of_digitRun {d : List Char} (hd : DigitRun d) :
    parseDigits d = some (digitsValue d) := by
  cases d with
  | nil => exact absurd rfl hd.1
  | cons c cs =>
    have hall : (c :: cs).all Char.isDigit = true := List.all_eq_true.mpr hd.2
    simp only [parseDigits, hall, if_true, digitsValue]

/-- On a run of decimal digits `Atoi` fails exactly when the number exceeds the
largest `int`. -/
theorem atoi_of_digitRun {d : List Char} (hd : DigitRun d) :
    Atoi d = if digitsValue d ≤ maxInt then some (digitsValue d : Int) else none := by
  cases d with
  | nil => exact absurd rfl hd.1
  | cons c cs =>
    have hc : c.isDigit = true := hd.2 c (by simp)
    have hm : c ≠ '-' := by rintro rfl; exact absurd hc (by decide)
    have hp : c ≠ '+' := by rintro rfl; exact absurd hc (by decide)
    simp only [Atoi, hm, hp, if_false, parseDigits_of_digitRun hd]

theorem atoi_toDigits (n : Nat) (h : n ≤ maxInt) : Atoi (Nat.toDigits 10 n) = some (n : Int) := by
  rw [atoi_of_digitRun (toDigits_spec n).1, (toDigits_spec n).2, if_pos h]

/-! ## The parser `ExtractCephVersion` -/

theorem findStringSubmatch_of_matchAt {s : List Char} {m : Submatch}
    (h : matchAt s = some m) : FindStringSubmatch s = some m := by
  cases s with
  | nil => exact h
  | cons c cs => simp only [FindStringSubmatch, h]

theorem takeWhile_of_not_beginsWithDigit {s : String} (h : ¬ BeginsWithDigit s) :
    s.toList.takeWhile Char.isDigit = [] := by
  unfold BeginsWithDigit at h
  cases hs : s.toList with
  | nil => rfl
  | cons x xs =>
    rw [hs] at h
    have hx : ¬ (x.isDigit = true) := fun hx => h ⟨x, by simp, hx⟩
    exact List.takeWhile_cons_of_neg hx

/-- C2: whatever precedes the first occurrence of the pattern and whatever follows
it (as long as it does not prolong the last number) is ignored: for numbers `a`,
`b`, `c` in the range of `int`, a prefix `p` without a match and a suffix `s` that
does not begin with a digit, the text `p ++ "ceph version a.b.c" ++ s` parses to
`CephVersion{a, b, c}`. -/
theorem extract_first_occurrence (a b c : Nat)
    (ha : a ≤ maxInt) (hb : b ≤ maxInt) (hc : c ≤ maxInt) (p s : String)
    (hp : ¬ ContainsVersion p) (hs : ¬ BeginsWithDigit s) :
    ExtractCephVersion
        (p ++ "ceph version " ++ Nat.repr a ++ "." ++ Nat.repr b ++ "." ++ Nat.repr c ++ s)
      = .ok ⟨a, b, c⟩ := by
  have hda := (toDigits_spec a).1
  have hdb := (toDigits_spec b).1
  have hdc := (toDigits_spec c).1
  have htext :
      (p ++ "ceph version " ++ Nat.repr a ++ "." ++ Nat.repr b ++ "." ++ Nat.repr c ++ s).toList
        = p.toList ++ (versionLiteral ++ (Nat.toDigits 10 a ++ '.' ::
            (Nat.toDigits 10 b ++ '.' :: (Nat.toDigits 10 c ++ s.toList)))) := by
    simp only [String.toList, String.data_append, List.append_assoc, versionLiteral, Nat.repr,
      List.asString]
    rfl
  have hmatch := matchAt_complete _ _ _ s.toList hda hdb hdc
  rw [takeWhile_of_not_beginsWithDigit hs, List.append_nil] at hmatch
  have hskip : FindStringSubmatch (p.toList ++ (versionLiteral ++ (Nat.toDigits 10 a ++ '.' ::
      (Nat.toDigits 10 b ++ '.' :: (Nat.toDigits 10 c ++ s.toList))))) =
      FindStringSubmatch (versionLiteral ++ (Nat.toDigits 10 a ++ '.' ::
      (Nat.toDigits 10 b ++ '.' :: (Nat.toDigits 10 c ++ s.toList)))) := by
    apply findStringSubmatch_append_left
    intro pre u hpu hu
    have hnone := (findStringSubmatch_eq_none_iff p.toList).mp
      ((findStringSubmatch_eq_none_iff_not_contains p).mpr hp) pre u hpu
    exact matchAt_append_c u _ hu hnone
  unfold ExtractCephVersion
  rw [htext, hskip, findStringSubmatch_of_matchAt hmatch]
  simp only [atoi_toDigits a ha, atoi_toDigits b hb, atoi_toDigits c hc]

/-- Instance of C2 at the text of the specification, with an empty prefix. -/
theorem extract_first_occurrence_witness :
    (14 ≤ maxInt ∧ 2 ≤ maxInt ∧ 1 ≤ maxInt) ∧ ¬ ContainsVersion "" ∧
      ¬ BeginsWithDigit " nautilus (abcdef)" ∧
      ExtractCephVersion "ceph version 14.2.1 nautilus (abcdef)" = .ok ⟨14, 2, 1⟩ :=
  ⟨⟨by decide, by decide, by decide⟩,
    (findStringSubmatch_eq_none_iff_not_contains "").mp rfl,
    by simp [BeginsWithDigit],
    extract_first_occurrence 14 2 1 (by decide) (by decide) (by decide) "" " nautilus (abcdef)"
      ((findStringSubmatch_eq_none_iff_not_contains "").mp rfl) (by simp [BeginsWithDigit])⟩

/-- C3: a text that contains no substring `ceph version <digits>.<digits>.<digits>`
is rejected with the message `failed to parse version from: ` followed by the
text. -/
theorem extract_no_match (src : String) (h : ¬ ContainsVersion src) :
    ExtractCephVersion src = .error ("failed to parse version from: " ++ src) := by
  unfold ExtractCephVersion
  rw [(findStringSubmatch_eq_none_iff_not_contains src).mpr h]

/-- Instance of C3 at the text of the specification. -/
theorem extract_no_match_witness :
    ¬ ContainsVersion "no version info here" ∧
      ExtractCephVersion "no version info here"
        = .error "failed to parse version from: no version info here" :=
  ⟨(findStringSubmatch_eq_none_iff_not_contains "no version info here").mp rfl,
    extract_no_match "no version info here"
      ((findStringSubmatch_eq_none_iff_not_contains "no version info here").mp rfl)⟩

/-- The shape of the slice that `FindStringSubmatch` returns: three digit runs, and
a whole match that is a contiguous part of the text. -/
theorem digitRuns_of_find {s : List Char} {m : Submatch}
    (h : FindStringSubmatch s = some m) :
    DigitRun m.m1 ∧ DigitRun m.m2 ∧ DigitRun m.m3 ∧ m.m0 <:+: s := by
  obtain ⟨pre, q, hs, hq, -⟩ := findStringSubmatch_eq_some h
  obtain ⟨post, hq2, -, h1, h2, h3, -⟩ := matchAt_sound hq
  exact ⟨h1, h2, h3, ⟨pre, post, by rw [hs, hq2, List.append_assoc]⟩⟩

/-- The result of the parser on a text with a match, in terms of the numbers that
the three groups of the leftmost match denote. -/
theorem extract_of_find {src : String} {m : Submatch}
    (h : FindStringSubmatch src.toList = some m) :
    ExtractCephVersion src =
      if digitsValue m.m1 ≤ maxInt then
        if digitsValue m.m2 ≤ maxInt then
          if digitsValue m.m3 ≤ maxInt then
            .ok ⟨digitsValue m.m1, digitsValue m.m2, digitsValue m.m3⟩
          else .error ("failed to parse version extra part: " ++ String.mk m.m2)
        else .error ("failed to parse version minor part: " ++ String.mk m.m1)
      else .error ("failed to parse version major part: " ++ String.mk m.m0) := by
  obtain ⟨h1, h2, h3, -⟩ := digitRuns_of_find h
  unfold ExtractCephVersion
  rw [h]
  simp only [atoi_of_digitRun h1, atoi_of_digitRun h2, atoi_of_digitRun h3]
  split_ifs <;> rfl

/-- C4, as stated, fails: the text below contains a match of the pattern, and the
parser rejects it because the major number is one more than the largest `int`. -/
theorem extract_rejects_out_of_range :
    ContainsVersion "ceph version 9223372036854775808.0.0" ∧
    ExtractCephVersion "ceph version 9223372036854775808.0.0" =
      .error "failed to parse version major part: ceph version 9223372036854775808.0.0" :=
  ⟨(findStringSubmatch_isSome_iff_contains _).mp rfl, rfl⟩

/-- C4, amended: the parser succeeds exactly on the texts that contain a match of
the pattern in whose leftmost match each of the three digit groups denotes a number
in the range of `int`; it fails exactly when the text contains no match or one of
these groups exceeds the largest `int`. -/
theorem extract_succeeds_iff (src : String) :
    ((∃ v, ExtractCephVersion src = .ok v) ↔
      ContainsVersion src ∧ ∀ m, FindStringSubmatch src.toList = some m →
        digitsValue m.m1 ≤ maxInt ∧ digitsValue m.m2 ≤ maxInt ∧ digitsValue m.m3 ≤ maxInt) ∧
    ((∃ msg, ExtractCephVersion src = .error msg) ↔
      ¬ ContainsVersion src ∨ ∃ m, FindStringSubmatch src.toList = some m ∧
        (maxInt < digitsValue m.m1 ∨ maxInt < digitsValue m.m2 ∨ maxInt < digitsValue m.m3)) := by
  cases hF : FindStringSubmatch src.toList with
  | none =>
    have hno := (findStringSubmatch_eq_none_iff_not_contains src).mp hF
    rw [extract_no_match src hno]
    simp [hno]
  | some m =>
    have hyes : ContainsVersion src :=
      (findStringSubmatch_isSome_iff_contains src).mp (by rw [hF]; rfl)
    rw [extract_of_find hF]
    simp only [hyes, true_and, not_true_eq_false, false_or, Option.some.injEq, forall_eq',
      exists_eq_left']
    split_ifs with h1 h2 h3
    · simp [h1, h2, h3]
    · simp [h1, h2, h3]; omega
    · simp [h1, h2]; omega
    · simp [h1]; omega

/-- Instance of the amended C4 at a text with a match in range and at a text with a
major number out of range. -/
theorem extract_succeeds_iff_witness :
    (∃ v, ExtractCephVersion "ceph version 14.2.1 nautilus (abcdef)" = .ok v) ∧
    (∃ msg, ExtractCephVersion "ceph version 9223372036854775808.0.0" = .error msg) :=
  ⟨(extract_succeeds_iff "ceph version 14.2.1 nautilus (abcdef)").1.mpr
      ⟨(findStringSubmatch_isSome_iff_contains _).mp rfl, fun m hm => by
        have hm2 : m = ⟨"ceph version 14.2.1".toList, "14".toList, "2".toList, "1".toList⟩ :=
          Option.some.inj (hm.symm.trans rfl)
        subst hm2
        decide⟩,
    (extract_succeeds_iff "ceph version 9223372036854775808.0.0").2.mpr
      (Or.inr ⟨⟨"ceph version 9223372036854775808.0.0".toList, "9223372036854775808".toList,
        "0".toList, "0".toList⟩, rfl, Or.inl (by decide)⟩)⟩

/-- C5, as stated, fails: on the text below the major number is out of range, and
the error message carries the matched fragment only; the text itself, which begins
with `x `, does not occur in the message. -/
theorem extract_error_omits_input :
    ExtractCephVersion "x ceph version 9223372036854775808.0.0" =
      .error "failed to parse version major part: ceph version 9223372036854775808.0.0" ∧
    ¬ Mentions "failed to parse version major part: ceph version 9223372036854775808.0.0"
        "x ceph version 9223372036854775808.0.0" := by
  refine ⟨rfl, fun h => ?_⟩
  have hx : 'x' ∈
      "failed to parse version major part: ceph version 9223372036854775808.0.0".toList :=
    h.subset (by decide)
  exact absurd hx (by decide)

/-- C5, amended: when the parser fails because nothing matches the pattern, the
error message contains the original text; when it fails because the major group of
the leftmost match does not convert, the message contains the matched fragment,
which is a contiguous part of the original text. -/
theorem extract_error_mentions (src : String) :
    (¬ ContainsVersion src →
      ∃ msg, ExtractCephVersion src = .error msg ∧ Mentions msg src) ∧
    (∀ m, FindStringSubmatch src.toList = some m → Atoi m.m1 = none →
      ∃ msg, ExtractCephVersion src = .error msg ∧ Mentions msg (String.mk m.m0) ∧
        Mentions src (String.mk m.m0)) := by
  constructor
  · intro h
    refine ⟨_, extract_no_match src h, ?_⟩
    exact (List.suffix_append _ _).isInfix
  · intro m hm hatoi
    obtain ⟨h1, -, -, hin⟩ := digitRuns_of_find hm
    refine ⟨"failed to parse version major part: " ++ String.mk m.m0, ?_, ?_, hin⟩
    · unfold ExtractCephVersion
      rw [hm]
      simp only [hatoi]
    · exact (List.suffix_append _ _).isInfix

/-- Instance of the amended C5 at a text without a match and at a text whose major
number is out of range. -/
theorem extract_error_mentions_witness :
    (¬ ContainsVersion "no version info here" ∧
      ∃ msg, ExtractCephVersion "no version info here" = .error msg ∧
        Mentions msg "no version info here") ∧
    (Atoi "9223372036854775808".toList = none ∧
      ∃ msg, ExtractCephVersion "x ceph version 9223372036854775808.0.0" = .error msg ∧
        Mentions msg "ceph version 9223372036854775808.0.0" ∧
        Mentions "x ceph version 9223372036854775808.0.0"
          "ceph version 9223372036854775808.0.0") :=
  ⟨⟨(findStringSubmatch_eq_none_iff_not_contains "no version info here").mp rfl,
      (extract_error_mentions "no version info here").1
        ((findStringSubmatch_eq_none_iff_not_contains "no version info here").mp rfl)⟩,
    ⟨by decide,
      (extract_error_mentions "x ceph version 9223372036854775808.0.0").2
        ⟨"ceph version 9223372036854775808.0.0".toList, "9223372036854775808".toList,
          "0".toList, "0".toList⟩ rfl (by decide)⟩⟩

/-! ## Formatting -/

theorem formatInt_eq_toString (i : Int) : String.mk (formatInt i) = toString i := by
  cases i with
  | ofNat m =>
    have h : ¬ (Int.ofNat m < 0) := by simp
    simp only [formatInt, h, if_false]
    rfl
  | negSucc m =>
    have h : Int.negSucc m < 0 := Int.negSucc_lt_zero m
    simp only [formatInt, h, if_true]
    rfl

theorem formatInt_of_nonneg {i : Int} (h : 0 ≤ i) : formatInt i = Nat.toDigits 10 i.toNat := by
  have h0 : ¬ (i < 0) := by omega
  simp only [formatInt, h0, if_false]

/-- The text that the format string of `String` produces. -/
theorem string_toList (v : CephVersion) :
    v.String.toList =
      formatInt v.Major ++ '.' :: (formatInt v.Minor ++ '.' ::
        (formatInt v.Extra ++ ' ' :: (ReleaseName v).toList)) := by
  simp [CephVersion.String, Sprintf]

/-- C11: `v.String()` is the decimal rendering of `v.Major`, a full stop, the decimal
rendering of `v.Minor`, a full stop, the decimal rendering of `v.Extra`, one space
and `v.ReleaseName()`; `{13,2,4}` gives `13.2.4 mimic` and `{14,2,1}` gives
`14.2.1 nautilus`. -/
theorem string_eq (v : CephVersion) :
    v.String =
      toString v.Major ++ "." ++ toString v.Minor ++ "." ++ toString v.Extra ++ " "
        ++ ReleaseName v ∧
    CephVersion.String ⟨13, 2, 4⟩ = "13.2.4 mimic" ∧
    CephVersion.String ⟨14, 2, 1⟩ = "14.2.1 nautilus" := by
  refine ⟨?_, by decide, by decide⟩
  apply String.ext
  have h := string_toList v
  simp only [String.toList] at h
  rw [h]
  simp only [String.data_append, ← formatInt_eq_toString, List.append_assoc]
  rfl

/-! ## Release identity -/

/-- C12: versions with the same major are classified alike, whatever their Minor
and Extra: `Supported`, `ReleaseName`, `IsLuminous` and `isRelease` against any
version agree. -/
theorem classification_of_major (v w : CephVersion) (h : v.Major = w.Major) :
    Supported v = Supported w ∧ ReleaseName v = ReleaseName w ∧
      IsLuminous v = IsLuminous w ∧ ∀ x, isRelease v x = isRelease w x := by
  simp only [Supported, supportedLoop, supportedVersions, IsLuminous, isRelease, ReleaseName, h,
    implies_true, and_self]

/-- Instance of C12 at two Nautilus builds. -/
theorem classification_of_major_witness :
    (⟨14, 0, 0⟩ : CephVersion).Major = (⟨14, 9, 9⟩ : CephVersion).Major ∧
    (Supported ⟨14, 0, 0⟩ = Supported ⟨14, 9, 9⟩ ∧
      ReleaseName ⟨14, 0, 0⟩ = ReleaseName ⟨14, 9, 9⟩ ∧
      IsLuminous ⟨14, 0, 0⟩ = IsLuminous ⟨14, 9, 9⟩ ∧
      ∀ x, isRelease ⟨14, 0, 0⟩ x = isRelease ⟨14, 9, 9⟩ x) :=
  ⟨rfl, classification_of_major ⟨14, 0, 0⟩ ⟨14, 9, 9⟩ rfl⟩

/-- C13: `v.isRelease(other)` is true exactly when the majors are equal, whatever
Minor and Extra are; hence it is reflexive, symmetric and transitive. -/
theorem isRelease_iff (v other : CephVersion) :
    (isRelease v other = true ↔ v.Major = other.Major) ∧
    isRelease ⟨14, 0, 0⟩ ⟨14, 9, 9⟩ = true ∧
    isRelease v v = true ∧
    (isRelease v other = true → isRelease other v = true) ∧
    (∀ w, isRelease v other = true → isRelease other w = true → isRelease v w = true) := by
  simp only [isRelease, decide_eq_true_eq, true_and]
  exact ⟨fun h => h.symm, fun w h1 h2 => h1.trans h2⟩

/-- Instance of C13: symmetry and transitivity among three Nautilus builds. -/
theorem isRelease_iff_witness :
    (isRelease ⟨14, 0, 0⟩ ⟨14, 9, 9⟩ = true ∧ isRelease ⟨14, 9, 9⟩ ⟨14, 0, 0⟩ = true) ∧
    (isRelease ⟨14, 9, 9⟩ ⟨14, 2, 1⟩ = true ∧ isRelease ⟨14, 0, 0⟩ ⟨14, 2, 1⟩ = true) :=
  ⟨⟨by decide, (isRelease_iff ⟨14, 0, 0⟩ ⟨14, 9, 9⟩).2.2.2.1 (by decide)⟩,
    ⟨by decide, (isRelease_iff ⟨14, 0, 0⟩ ⟨14, 9, 9⟩).2.2.2.2 ⟨14, 2, 1⟩ (by decide) (by decide)⟩⟩

/-- C14: the static catalog is a partition: no major of `supportedVersions` occurs
in `unsupportedVersions`, `allVersions` is the supported entries followed by the
unsupported ones, namely Luminous, Mimic, Nautilus, and its majors are pairwise
distinct. -/
theorem catalog_partition :
    (∀ s ∈ supportedVersions, ∀ u ∈ unsupportedVersions, s.Major ≠ u.Major) ∧
    allVersions = supportedVersions ++ unsupportedVersions ∧
    allVersions = [Luminous, Mimic, Nautilus] ∧
    allVersions = [⟨12, 0, 0⟩, ⟨13, 0, 0⟩, ⟨14, 0, 0⟩] ∧
    allVersions.Pairwise (fun a b => a.Major ≠ b.Major) := by
  refine ⟨by decide, rfl, rfl, rfl, by decide⟩

/-! ## What the parser returns and reports -/

/-- C15: a version that the parser returns has non-negative Major, Minor and
Extra. -/
theorem extract_nonneg (src : String) (v : CephVersion)
    (h : ExtractCephVersion src = .ok v) :
    0 ≤ v.Major ∧ 0 ≤ v.Minor ∧ 0 ≤ v.Extra := by
  cases hF : FindStringSubmatch src.toList with
  | none =>
    unfold ExtractCephVersion at h
    rw [hF] at h
    cases h
  | some m =>
    rw [extract_of_find hF] at h
    split_ifs at h
    · cases h
      exact ⟨Int.ofNat_nonneg _, Int.ofNat_nonneg _, Int.ofNat_nonneg _⟩

/-- Instance of C15 at the text of the specification. -/
theorem extract_nonneg_witness :
    ExtractCephVersion "ceph version 14.2.1 nautilus (abcdef)" = .ok ⟨14, 2, 1⟩ ∧
    (0 ≤ (⟨14, 2, 1⟩ : CephVersion).Major ∧ 0 ≤ (⟨14, 2, 1⟩ : CephVersion).Minor ∧
      0 ≤ (⟨14, 2, 1⟩ : CephVersion).Extra) :=
  ⟨rfl, extract_nonneg "ceph version 14.2.1 nautilus (abcdef)" ⟨14, 2, 1⟩ rfl⟩

/-- C16 fails on the code: when the minor group does not convert, the message
carries the major group, and when the extra group does not convert, it carries the
minor group.  In both texts below the message contains neither the digits of the
group that failed, nor the matched fragment, nor the original text. -/
theorem extract_error_names_previous_group :
    (ExtractCephVersion "ceph version 1.9223372036854775808.0" =
        .error "failed to parse version minor part: 1" ∧
      ¬ Mentions "failed to parse version minor part: 1" "9223372036854775808" ∧
      ¬ Mentions "failed to parse version minor part: 1"
          "ceph version 1.9223372036854775808.0") ∧
    (ExtractCephVersion "ceph version 1.2.9223372036854775808" =
        .error "failed to parse version extra part: 2" ∧
      ¬ Mentions "failed to parse version extra part: 2" "9223372036854775808" ∧
      ¬ Mentions "failed to parse version extra part: 2"
          "ceph version 1.2.9223372036854775808") := by
  have key : ∀ msg text : String, '9' ∈ text.toList → '9' ∉ msg.toList → ¬ Mentions msg text :=
    fun msg text h9 hno h => hno (h.subset h9)
  refine ⟨⟨rfl, key _ _ (by decide) (by decide), key _ _ (by decide) (by decide)⟩,
    ⟨rfl, key _ _ (by decide) (by decide), key _ _ (by decide) (by decide)⟩⟩

/-! ## Named release queries -/

theorem supported_eq_true_iff (v : CephVersion) :
    Supported v = true ↔ v.Major = 12 ∨ v.Major = 13 := by
  unfold Supported
  rw [supportedLoop_iff]
  simp [supportedVersions, isRelease, Luminous, Mimic]

/-- C17: `v.IsLuminous()` is `v.isRelease(Luminous)`, true exactly for major 12, and
a Luminous version is supported. -/
theorem isLuminous_iff (v : CephVersion) :
    IsLuminous v = isRelease v Luminous ∧
    (IsLuminous v = true ↔ v.Major = 12) ∧
    (IsLuminous v = true → Supported v = true) := by
  have h12 : IsLuminous v = true ↔ v.Major = 12 := by
    simp [IsLuminous, isRelease, Luminous]
  refine ⟨rfl, h12, fun h => ?_⟩
  rw [supported_eq_true_iff]
  exact Or.inl (h12.mp h)

/-- Instance of C17 at a Luminous build. -/
theorem isLuminous_iff_witness :
    IsLuminous ⟨12, 2, 0⟩ = true ∧ Supported ⟨12, 2, 0⟩ = true :=
  ⟨by decide, (isLuminous_iff ⟨12, 2, 0⟩).2.2 (by decide)⟩

/-- C18: for a version with non-negative Minor and Extra the named thresholds depend
on the major alone: at least Mimic is major 13 or more, at least Nautilus is major
14 or more, at least Octopus is major 15 or more. -/
theorem isAtLeast_named_iff (v : CephVersion) (hminor : 0 ≤ v.Minor) (hextra : 0 ≤ v.Extra) :
    (IsAtLeastMimic v = true ↔ 13 ≤ v.Major) ∧
    (IsAtLeastNautilus v = true ↔ 14 ≤ v.Major) ∧
    (IsAtLeastOctopus v = true ↔ 15 ≤ v.Major) := by
  simp only [IsAtLeastMimic, IsAtLeastNautilus, IsAtLeastOctopus, isAtLeast_iff, Mimic, Nautilus,
    Octopus]
  omega

/-- Instance of C18 at `14.2.1`. -/
theorem isAtLeast_named_iff_witness :
    (0 ≤ (⟨14, 2, 1⟩ : CephVersion).Minor ∧ 0 ≤ (⟨14, 2, 1⟩ : CephVersion).Extra) ∧
    (IsAtLeastMimic ⟨14, 2, 1⟩ = true ↔ (13 : Int) ≤ (⟨14, 2, 1⟩ : CephVersion).Major) ∧
    (IsAtLeastNautilus ⟨14, 2, 1⟩ = true ↔ (14 : Int) ≤ (⟨14, 2, 1⟩ : CephVersion).Major) ∧
    (IsAtLeastOctopus ⟨14, 2, 1⟩ = true ↔ (15 : Int) ≤ (⟨14, 2, 1⟩ : CephVersion).Major) :=
  ⟨⟨by decide, by decide⟩, isAtLeast_named_iff ⟨14, 2, 1⟩ (by decide) (by decide)⟩

/-- C20: the named thresholds are nested, at least Octopus implies at least
Nautilus and at least Nautilus implies at least Mimic, and a supported version is
not at least Nautilus. -/
theorem thresholds_nested (v : CephVersion) :
    (IsAtLeastOctopus v = true → IsAtLeastNautilus v = true) ∧
    (IsAtLeastNautilus v = true → IsAtLeastMimic v = true) ∧
    (Supported v = true → IsAtLeastNautilus v = false) := by
  rw [← Bool.not_eq_true, supported_eq_true_iff]
  simp only [IsAtLeastMimic, IsAtLeastNautilus, IsAtLeastOctopus, isAtLeast_iff, Mimic, Nautilus,
    Octopus]
  omega

/-- Instance of C20 at an Octopus build and at a supported Mimic build. -/
theorem thresholds_nested_witness :
    (IsAtLeastOctopus ⟨15, 0, 0⟩ = true ∧ IsAtLeastNautilus ⟨15, 0, 0⟩ = true) ∧
    (IsAtLeastNautilus ⟨15, 0, 0⟩ = true ∧ IsAtLeastMimic ⟨15, 0, 0⟩ = true) ∧
    (Supported ⟨13, 2, 4⟩ = true ∧ IsAtLeastNautilus ⟨13, 2, 4⟩ = false) :=
  ⟨⟨by decide, (thresholds_nested ⟨15, 0, 0⟩).1 (by decide)⟩,
    ⟨by decide, (thresholds_nested ⟨15, 0, 0⟩).2.1 (by decide)⟩,
    ⟨by decide, (thresholds_nested ⟨13, 2, 4⟩).2.2 (by decide)⟩⟩

/-! ## Formatting, then parsing -/

/-- The parser on a text that begins with the literal, three decimal numbers in the
range of `int` separated by full stops, and a space. -/
theorem extract_of_rendered (a b c : Nat) (ha : a ≤ maxInt) (hb : b ≤ maxInt) (hc : c ≤ maxInt)
    (src : String) (rest : List Char)
    (hsrc : src.toList = versionLiteral ++ (Nat.toDigits 10 a ++ '.' ::
      (Nat.toDigits 10 b ++ '.' :: (Nat.toDigits 10 c ++ ' ' :: rest)))) :
    ExtractCephVersion src = .ok ⟨a, b, c⟩ := by
  have hmatch := matchAt_complete _ _ _ (' ' :: rest)
    (toDigits_spec a).1 (toDigits_spec b).1 (toDigits_spec c).1
  have hsp : ¬ (Char.isDigit ' ' = true) := by decide
  rw [List.takeWhile_cons_of_neg hsp, List.append_nil, ← hsrc] at hmatch
  unfold ExtractCephVersion
  rw [findStringSubmatch_of_matchAt hmatch]
  simp only [atoi_toDigits a ha, atoi_toDigits b hb, atoi_toDigits c hc]

/-- C19: formatting a version whose components are non-negative and in the range of
`int`, and parsing `ceph version ` followed by the result, gives the version back;
the release name that `String` appends is ignored. -/
theorem extract_string_roundtrip (v : CephVersion)
    (hmajor : 0 ≤ v.Major ∧ v.Major ≤ maxInt) (hminor : 0 ≤ v.Minor ∧ v.Minor ≤ maxInt)
    (hextra : 0 ≤ v.Extra ∧ v.Extra ≤ maxInt) :
    ExtractCephVersion ("ceph version " ++ v.String) = .ok v := by
  obtain ⟨major, minor, extra⟩ := v
  simp only at hmajor hminor hextra
  have h := extract_of_rendered major.toNat minor.toNat extra.toNat (by omega) (by omega)
    (by omega) ("ceph version " ++ CephVersion.String ⟨major, minor, extra⟩)
    (ReleaseName ⟨major, minor, extra⟩).toList (by
      have hs := string_toList ⟨major, minor, extra⟩
      simp only [String.toList] at hs ⊢
      rw [String.data_append, hs, formatInt_of_nonneg hmajor.1, formatInt_of_nonneg hminor.1,
        formatInt_of_nonneg hextra.1]
      rfl)
  rw [h, Int.toNat_of_nonneg hmajor.1, Int.toNat_of_nonneg hminor.1,
    Int.toNat_of_nonneg hextra.1]

/-- Instance of C19 at `14.2.1`. -/
theorem extract_string_roundtrip_witness :
    ((0 : Int) ≤ 14 ∧ (14 : Int) ≤ maxInt) ∧ ((0 : Int) ≤ 2 ∧ (2 : Int) ≤ maxInt) ∧
    ((0 : Int) ≤ 1 ∧ (1 : Int) ≤ maxInt) ∧
    ExtractCephVersion ("ceph version " ++ CephVersion.String ⟨14, 2, 1⟩) = .ok ⟨14, 2, 1⟩ :=
  ⟨by decide, by decide, by decide,
    extract_string_roundtrip ⟨14, 2, 1⟩ (by decide) (by decide) (by decide)⟩

end Version
